import Mathlib

/-!
Verification of the mini-groupcache repository: a shallow embedding of its
LRU cache (`lru/lru.go`), consistent-hash ring (`consistenthash/consistenthash.go`),
group orchestrator (`cache.go` / the Group code) and singleflight coordinator
(`singleflight.Group.Do`), together with theorems settling the specification claims.
-/

namespace Lru

/-- Embedding of `lru.Cache` (lru.go).  The Go code keeps a doubly linked
list `ll` (front = most recently used) plus a map `cache : key -> *list.Element`
pointing into the list; the map is an O(1) index whose contents are determined
by the list, so the embedding keeps the list as the authoritative state and
models map lookup as a search by key.  Values implement the `Value` interface
(`Len() int`); the embedding is generic in the value type `V` and takes the
interface method as a function `vLen : V -> Nat`.  The optional `OnEvicted`
hook is an external side effect that never changes the cache state and is
not part of the state here.  `maxBytes`/`nbytes` are Go `int64`;
they are modelled as `Int` (the claims never approach the 2^63 wrap). -/
structure Cache (V : Type) where
  maxBytes : Int
  nbytes : Int
  ll : List (String × V)
deriving Repr, DecidableEq

/-- `lru.NewCache` (the `onEvicted` hook carries no state). -/
def NewCache (V : Type) (maxBytes : Int) : Cache V :=
  { maxBytes := maxBytes, nbytes := 0, ll := [] }

/-- The first half of `Cache.Add`: insert or update the entry, before the
capacity check.  Existing key: `MoveToFront`, update the stored value and add
the size delta `value.Len() - old.Len()` to `nbytes`.  New key: `PushFront`
and add `len(key) + value.Len()`. -/
def Cache.addEntry {V : Type} (vLen : V → Nat) (c : Cache V) (key : String) (value : V) :
    Cache V :=
  match c.ll.find? (fun e => e.1 == key) with
  | some e =>
      { c with
        ll := (key, value) :: c.ll.eraseP (fun e => e.1 == key),
        nbytes := c.nbytes + (vLen value : Int) - (vLen e.2 : Int) }
  | none =>
      { c with
        ll := (key, value) :: c.ll,
        nbytes := c.nbytes + (key.length : Int) + (vLen value : Int) }

/-- `Cache.RemoveOldest`: drop the back of the list (least recently used) and
release its bytes; no-op when the list is empty. -/
def Cache.removeOldest {V : Type} (vLen : V → Nat) (c : Cache V) : Cache V :=
  match c.ll.getLast? with
  | none => c
  | some e =>
      { c with
        ll := c.ll.dropLast,
        nbytes := c.nbytes - (e.1.length : Int) - (vLen e.2 : Int) }

/-- `Cache.Add`: insert/update, then `if c.maxBytes != 0 && c.nbytes > c.maxBytes`
call `RemoveOldest` once (the source uses `if`, not a loop). -/
def Cache.add {V : Type} (vLen : V → Nat) (c : Cache V) (key : String) (value : V) :
    Cache V :=
  let c1 := c.addEntry vLen key value
  if c1.maxBytes ≠ 0 ∧ c1.nbytes > c1.maxBytes then c1.removeOldest vLen else c1

/-- `Cache.Get`: on hit move the element to the front and return its value;
on miss return `none` with the cache untouched. -/
def Cache.get {V : Type} (c : Cache V) (key : String) : Option V × Cache V :=
  match c.ll.find? (fun e => e.1 == key) with
  | some e => (some e.2, { c with ll := e :: c.ll.eraseP (fun x => x.1 == key) })
  | none => (none, c)

/-- `Cache.Len`: number of live entries. -/
def Cache.len {V : Type} (c : Cache V) : Nat :=
  c.ll.length

/-- The values in the `lru` unit test are Go `String` with `Len() = len(s)`;
byte length and character count coincide on the ASCII keys used here. -/
def strLen (s : String) : Nat := s.length

/-- What `Cache.Add` actually guarantees about capacity: after the
insert/update step, if the byte budget is respected nothing is evicted, and
if it is exceeded exactly one `RemoveOldest` runs (dropping the last, least
recently used entry and releasing its bytes) whether or not that restores the
budget; moreover `Get` never changes `nbytes` and `RemoveOldest` never
increases it. -/
def AddEvictsAtMostOnce {V : Type} (vLen : V → Nat) (c : Cache V) (key : String)
    (value : V) : Prop :=
  (((c.addEntry vLen key value).nbytes ≤ c.maxBytes →
      c.add vLen key value = c.addEntry vLen key value) ∧
   (c.maxBytes < (c.addEntry vLen key value).nbytes →
      c.add vLen key value = (c.addEntry vLen key value).removeOldest vLen ∧
      (c.add vLen key value).ll = (c.addEntry vLen key value).ll.dropLast ∧
      ∀ e, (c.addEntry vLen key value).ll.getLast? = some e →
        (c.add vLen key value).nbytes =
          (c.addEntry vLen key value).nbytes - e.1.length - vLen e.2)) ∧
  ((c.get key).2.nbytes = c.nbytes ∧ (c.removeOldest vLen).nbytes ≤ c.nbytes)

theorem addEntry_maxBytes {V : Type} (vLen : V → Nat) (c : Cache V) (key : String)
    (value : V) : (c.addEntry vLen key value).maxBytes = c.maxBytes := by
  unfold Cache.addEntry
  cases c.ll.find? (fun e => e.1 == key) <;> rfl

theorem removeOldest_nbytes_le {V : Type} (vLen : V → Nat) (c : Cache V) :
    (c.removeOldest vLen).nbytes ≤ c.nbytes := by
  unfold Cache.removeOldest
  cases c.ll.getLast? with
  | none => exact le_refl _
  | some e => simp only; omega

theorem get_nbytes {V : Type} (c : Cache V) (key : String) :
    (c.get key).2.nbytes = c.nbytes := by
  unfold Cache.get
  cases c.ll.find? (fun e => e.1 == key) <;> rfl

end Lru

/-- C1 counterexample: with `maxBytes = 4`, adding `("a","1")`, `("b","2")`
and then `("c","34567")` leaves `nbytes = 8 > 4` with two entries still in
the store — `Add` evicted only once, so the claimed invariant
"`usedBytes <= capacityBytes` or the store is empty after every mutating
operation" fails. -/
theorem lru_capacity_invariant_cex :
    ((((Lru.NewCache String 4).add Lru.strLen "a" "1").add Lru.strLen "b" "2").add
        Lru.strLen "c" "34567").maxBytes ≠ 0 ∧
    ¬(((((Lru.NewCache String 4).add Lru.strLen "a" "1").add Lru.strLen "b" "2").add
          Lru.strLen "c" "34567").nbytes ≤
        ((((Lru.NewCache String 4).add Lru.strLen "a" "1").add Lru.strLen "b" "2").add
          Lru.strLen "c" "34567").maxBytes ∨
      ((((Lru.NewCache String 4).add Lru.strLen "a" "1").add Lru.strLen "b" "2").add
          Lru.strLen "c" "34567").ll = []) := by
  decide

/-- C1 (amended): for a capacity-bounded store, `Add` evicts the
least-recently-used entry at most once — nothing when the budget holds after
the insert/update step, exactly one `RemoveOldest` otherwise (which may leave
`usedBytes > capacityBytes`); `Get` preserves `usedBytes` and `RemoveOldest`
never increases it. -/
theorem lru_add_evicts_at_most_once {V : Type} (vLen : V → Nat) (c : Lru.Cache V)
    (key : String) (value : V) (h : c.maxBytes ≠ 0) :
    Lru.AddEvictsAtMostOnce vLen c key value := by
  have hmax := Lru.addEntry_maxBytes vLen c key value
  refine ⟨⟨?_, ?_⟩, Lru.get_nbytes c key, Lru.removeOldest_nbytes_le vLen c⟩
  · intro hle
    unfold Lru.Cache.add
    rw [if_neg]
    simp only [hmax, not_and, not_lt]
    intro _
    exact hle
  · intro hgt
    unfold Lru.Cache.add
    rw [if_pos ⟨by rw [hmax]; exact h, by rw [hmax]; exact hgt⟩]
    refine ⟨rfl, ?_, ?_⟩
    · unfold Lru.Cache.removeOldest
      cases hl : (c.addEntry vLen key value).ll.getLast? with
      | none => simp [List.getLast?_eq_none_iff.mp hl]
      | some e => rfl
    · intro e he
      unfold Lru.Cache.removeOldest
      rw [he]

/-- C1 witness: the amended statement instantiated on a concrete store of
capacity 4. -/
theorem lru_add_evicts_at_most_once_witness :
    (Lru.NewCache String 4).maxBytes ≠ 0 ∧
    Lru.AddEvictsAtMostOnce Lru.strLen (Lru.NewCache String 4) "a" "1" :=
  ⟨by decide, lru_add_evicts_at_most_once Lru.strLen (Lru.NewCache String 4) "a" "1"
    (by decide)⟩

/-- C7: with capacity 20 bytes, adding `("key1","value1")`, `("key2","value2")`
then `("k3","v3")` evicts `key1`: `Get("key1")` misses and `Len() = 2`. -/
theorem lru_capacity20_scenario :
    (((((Lru.NewCache String 20).add Lru.strLen "key1" "value1").add
        Lru.strLen "key2" "value2").add Lru.strLen "k3" "v3").get "key1").1 = none ∧
    ((((Lru.NewCache String 20).add Lru.strLen "key1" "value1").add
        Lru.strLen "key2" "value2").add Lru.strLen "k3" "v3").len = 2 := by
  decide

namespace ConsistentHash

/-- Embedding of `consistenthash.Map`.  The injected `Hash` is applied in Go
to the UTF-8 bytes of a string and returns a `uint32` that is then widened to
`int`; the composite is modelled as `hash : String -> Nat`.  The Go map
`hashMap : map[int]string` is modelled as a total function whose value on an
absent key is `""`, Go's zero value for `string` (which is also what
`m.hashMap[...]` yields on a miss, and what `delete` restores). -/
structure Map where
  hash : String → Nat
  replicas : Nat
  keys : List Nat
  hashMap : Nat → String

/-- `consistenthash.New`.  The crc32 default for a nil hash lives outside
the core; the embedding always receives the hash capability explicitly. -/
def New (replicas : Nat) (hash : String → Nat) : Map :=
  { hash := hash, replicas := replicas, keys := [], hashMap := fun _ => "" }

/-- One iteration of the loop body in `Map.Add` for virtual-node index `i` of
real node `key`: append `hash(itoa(i) + key)` to the ring and record the
virtual-to-real mapping. -/
def addStep (key : String) (m : Map) (i : Nat) : Map :=
  let h := m.hash (toString i ++ key)
  { m with
    keys := m.keys ++ [h],
    hashMap := fun x => if x = h then key else m.hashMap x }

/-- The inner `for i := 0; i < m.replicas; i++` loop of `Map.Add` for one
real node. -/
def addNode (m : Map) (key : String) : Map :=
  (List.range m.replicas).foldl (addStep key) m

/-- `Map.Add(keys...)`: generate all virtual nodes, then `sort.Ints` the ring. -/
def Add (m : Map) (nodeKeys : List String) : Map :=
  let m1 := nodeKeys.foldl addNode m
  { m1 with keys := m1.keys.insertionSort (· ≤ ·) }

/-- `Map.IsEmpty`. -/
def IsEmpty (m : Map) : Bool :=
  m.keys.isEmpty

/-- `Map.Get`: hash the key, `sort.Search` for the first ring index whose
value is `>= hash` (on the sorted ring the predicate `m.keys[i] >= hash` is
monotone, so the binary search returns the least index satisfying it, i.e.
`List.findIdx`), wrap to index 0 when the search falls off the end, and
answer with the real node of that virtual position. -/
def Get (m : Map) (key : String) : String :=
  if IsEmpty m then ""
  else
    let h := m.hash key
    let idx := m.keys.findIdx (fun v => h ≤ v)
    let idx := if idx = m.keys.length then 0 else idx
    m.hashMap (m.keys.getD idx 0)

/-- One iteration of `Map.Remove` for virtual-node index `i`:
`sort.SearchInts` (again the least ring index with value `>= hash`, by
monotonicity on the sorted ring), then `append(m.keys[:idx], m.keys[idx+1:]...)`
— which panics with a slice-bounds error when `idx+1 > len(m.keys)`, and
otherwise removes position `idx` unconditionally, found hash or not — then
`delete(m.hashMap, hash)`. -/
def removeStep (key : String) (m : Map) (i : Nat) : Except String Map :=
  let h := m.hash (toString i ++ key)
  let idx := m.keys.findIdx (fun v => h ≤ v)
  if m.keys.length < idx + 1 then
    .error "slice bounds out of range"
  else
    .ok { m with
      keys := m.keys.take idx ++ m.keys.drop (idx + 1),
      hashMap := fun x => if x = h then "" else m.hashMap x }

/-- `Map.Remove`: run the per-replica loop (propagating a panic), then
`sort.Ints` the ring. -/
def Remove (m : Map) (key : String) : Except String Map :=
  match (List.range m.replicas).foldlM (removeStep key) m with
  | .error e => .error e
  | .ok m1 => .ok { m1 with keys := m1.keys.insertionSort (· ≤ ·) }

end ConsistentHash

namespace ConsistentHash

theorem foldl_addStep_hash (key : String) (L : List Nat) (m : Map) :
    (L.foldl (addStep key) m).hash = m.hash := by
  induction L generalizing m with
  | nil => rfl
  | cons i L ih => exact (ih (addStep key m i)).trans rfl

theorem foldl_addStep_replicas (key : String) (L : List Nat) (m : Map) :
    (L.foldl (addStep key) m).replicas = m.replicas := by
  induction L generalizing m with
  | nil => rfl
  | cons i L ih => exact (ih (addStep key m i)).trans rfl

theorem foldl_addStep_keys (key : String) (L : List Nat) (m : Map) :
    (L.foldl (addStep key) m).keys =
      m.keys ++ L.map (fun i => m.hash (toString i ++ key)) := by
  induction L generalizing m with
  | nil => simp
  | cons i L ih =>
      rw [List.foldl_cons, ih (addStep key m i)]
      simp [addStep, List.append_assoc]

theorem foldl_addStep_hashMap_notmem (key : String) (L : List Nat) (m : Map) (x : Nat)
    (hx : ∀ i ∈ L, m.hash (toString i ++ key) ≠ x) :
    (L.foldl (addStep key) m).hashMap x = m.hashMap x := by
  induction L generalizing m with
  | nil => rfl
  | cons i L ih =>
      rw [List.foldl_cons]
      have h1 : (addStep key m i).hashMap x = m.hashMap x := by
        have hne : x ≠ m.hash (toString i ++ key) :=
          fun he => hx i (List.mem_cons_self i L) he.symm
        simp [addStep, hne]
      have h2 := ih (addStep key m i)
        (fun j hj => hx j (List.mem_cons_of_mem i hj))
      exact h2.trans h1

theorem foldl_addStep_hashMap_mem (key : String) (L : List Nat) (m : Map) (x : Nat)
    (hx : ∃ i ∈ L, m.hash (toString i ++ key) = x) :
    (L.foldl (addStep key) m).hashMap x = key := by
  induction L generalizing m with
  | nil => simp at hx
  | cons i L ih =>
      rw [List.foldl_cons]
      by_cases hL : ∃ j ∈ L, m.hash (toString j ++ key) = x
      · exact ih (addStep key m i) hL
      · push_neg at hL
        have h2 := foldl_addStep_hashMap_notmem key L (addStep key m i) x hL
        have hi : m.hash (toString i ++ key) = x := by
          obtain ⟨i0, hi0, hh⟩ := hx
          rcases List.mem_cons.mp hi0 with h | h
          · exact h ▸ hh
          · exact absurd hh (hL i0 h)
        have h1 : (addStep key m i).hashMap x = key := by
          simp [addStep, hi.symm]
        exact h2.trans h1

theorem addNode_hash (m : Map) (key : String) : (addNode m key).hash = m.hash :=
  foldl_addStep_hash key _ m

theorem addNode_replicas (m : Map) (key : String) :
    (addNode m key).replicas = m.replicas :=
  foldl_addStep_replicas key _ m

theorem addNode_keys (m : Map) (key : String) :
    (addNode m key).keys =
      m.keys ++ (List.range m.replicas).map (fun i => m.hash (toString i ++ key)) :=
  foldl_addStep_keys key _ m

end ConsistentHash

namespace ConsistentHash

theorem foldl_addNode_hash (ks : List String) (m : Map) :
    (ks.foldl addNode m).hash = m.hash := by
  induction ks generalizing m with
  | nil => rfl
  | cons a ks ih => exact (ih (addNode m a)).trans (addNode_hash m a)

theorem foldl_addNode_replicas (ks : List String) (m : Map) :
    (ks.foldl addNode m).replicas = m.replicas := by
  induction ks generalizing m with
  | nil => rfl
  | cons a ks ih => exact (ih (addNode m a)).trans (addNode_replicas m a)

/-- The ring positions produced by folding `addNode` over a node list: the
old positions followed by every node's `replicas` virtual hashes. -/
theorem foldl_addNode_keys (ks : List String) (m : Map) :
    (ks.foldl addNode m).keys =
      m.keys ++ ks.flatMap
        (fun a => (List.range m.replicas).map (fun i => m.hash (toString i ++ a))) := by
  induction ks generalizing m with
  | nil => simp
  | cons a ks ih =>
      rw [List.foldl_cons, ih (addNode m a), addNode_keys m a, addNode_hash m a,
        addNode_replicas m a, List.flatMap_cons, List.append_assoc]

/-- A hash value none of the nodes' virtual points produce is left untouched
in the virtual-to-real table. -/
theorem foldl_addNode_hashMap_notmem (ks : List String) (m : Map) (x : Nat)
    (hx : ∀ b ∈ ks, ∀ j, j < m.replicas → m.hash (toString j ++ b) ≠ x) :
    (ks.foldl addNode m).hashMap x = m.hashMap x := by
  induction ks generalizing m with
  | nil => rfl
  | cons a ks ih =>
      rw [List.foldl_cons]
      have h1 : (addNode m a).hashMap x = m.hashMap x := by
        refine foldl_addStep_hashMap_notmem a _ m x ?_
        intro j hj
        exact hx a (List.mem_cons_self a ks) j (List.mem_range.mp hj)
      have h2 : (ks.foldl addNode (addNode m a)).hashMap x = (addNode m a).hashMap x := by
        refine ih (addNode m a) ?_
        intro b hb j hj
        rw [addNode_replicas m a] at hj
        rw [show (addNode m a).hash = m.hash from addNode_hash m a]
        exact hx b (List.mem_cons_of_mem a hb) j hj
      exact h2.trans h1

/-- When exactly one registered node owns the virtual hash `x`, the
virtual-to-real table maps `x` to it, in whatever order the nodes were
folded in. -/
theorem foldl_addNode_hashMap_mem (ks : List String) (m : Map) (x : Nat)
    (a : String) (ha : a ∈ ks) (hhit : ∃ i, i < m.replicas ∧ m.hash (toString i ++ a) = x)
    (huniq : ∀ b ∈ ks, ∀ j, j < m.replicas → m.hash (toString j ++ b) = x → b = a) :
    (ks.foldl addNode m).hashMap x = a := by
  induction ks generalizing m with
  | nil => simp at ha
  | cons c ks ih =>
      rw [List.foldl_cons]
      by_cases hrest : ∃ b ∈ ks, ∃ j, j < m.replicas ∧ m.hash (toString j ++ b) = x
      · obtain ⟨b, hb, j, hj, hhb⟩ := hrest
        have hba : b = a := huniq b (List.mem_cons_of_mem c hb) j hj hhb
        subst hba
        refine ih (addNode m c) hb ?_ ?_
        · exact ⟨j, by rw [addNode_replicas m c]; exact hj,
            by rw [addNode_hash m c]; exact hhb⟩
        · intro b2 hb2 j2 hj2 hhb2
          rw [addNode_replicas m c] at hj2
          rw [addNode_hash m c] at hhb2
          exact huniq b2 (List.mem_cons_of_mem c hb2) j2 hj2 hhb2
      · push_neg at hrest
        have hnot : ∀ b ∈ ks, ∀ j, j < (addNode m c).replicas →
            (addNode m c).hash (toString j ++ b) ≠ x := by
          intro b hb j hj
          rw [addNode_replicas m c] at hj
          rw [addNode_hash m c]
          exact hrest b hb j hj
        have h2 := foldl_addNode_hashMap_notmem ks (addNode m c) x hnot
        have hac : a = c := by
          rcases List.mem_cons.mp ha with h | h
          · exact h
          · obtain ⟨i, hi, hhi⟩ := hhit
            exact absurd hhi (hrest a h i hi)
        subst hac
        have h1 : (addNode m a).hashMap x = a := by
          obtain ⟨i, hi, hhi⟩ := hhit
          exact foldl_addStep_hashMap_mem a _ m x ⟨i, List.mem_range.mpr hi, hhi⟩
        exact h2.trans h1

end ConsistentHash

namespace ConsistentHash

theorem Add_hash (m : Map) (ks : List String) : (Add m ks).hash = m.hash :=
  foldl_addNode_hash ks m

theorem Add_replicas (m : Map) (ks : List String) : (Add m ks).replicas = m.replicas :=
  foldl_addNode_replicas ks m

theorem Add_hashMap (m : Map) (ks : List String) :
    (Add m ks).hashMap = (ks.foldl addNode m).hashMap :=
  rfl

theorem Add_keys (m : Map) (ks : List String) :
    (Add m ks).keys = ((ks.foldl addNode m).keys).insertionSort (· ≤ ·) :=
  rfl

theorem sorted_getElem_mono (l : List Nat) (hs : List.Sorted (· ≤ ·) l)
    (i j : Nat) (hi : i < l.length) (hj : j < l.length) (hij : i ≤ j) :
    l[i] ≤ l[j] := by
  rcases Nat.lt_or_ge i j with h | h
  · exact List.pairwise_iff_getElem.mp hs i j hi hj h
  · have he : i = j := Nat.le_antisymm hij h
    subst he
    exact Nat.le_refl _

/-- Evaluation of `Get` on a non-empty ring: `sort.Search`, the wrap to 0,
and the table lookup, written out. -/
theorem Get_eq_of_ne_nil (m : Map) (key : String) (h : m.keys ≠ []) :
    Get m key = m.hashMap (m.keys.getD
      (if m.keys.findIdx (fun v => decide (m.hash key ≤ v)) = m.keys.length then 0
       else m.keys.findIdx (fun v => decide (m.hash key ≤ v))) 0) := by
  unfold Get IsEmpty
  rw [if_neg (by simp [List.isEmpty_iff, h])]

end ConsistentHash

/-- C3: on a non-empty (sorted) ring, `Get(key)` returns the real node of the
first ring position whose hash value is `>=` the key's hash; when every ring
value is below the key's hash it wraps to the smallest ring position; on an
empty ring it returns `""`. -/
theorem ring_get_first_position_ge (m : ConsistentHash.Map) (key : String) :
    (m.keys = [] → ConsistentHash.Get m key = "") ∧
    (List.Sorted (· ≤ ·) m.keys → m.keys ≠ [] →
      ∃ t, t ∈ m.keys ∧ ConsistentHash.Get m key = m.hashMap t ∧
        ((∃ v ∈ m.keys, m.hash key ≤ v) →
          m.hash key ≤ t ∧ ∀ v ∈ m.keys, m.hash key ≤ v → t ≤ v) ∧
        ((∀ v ∈ m.keys, v < m.hash key) → ∀ v ∈ m.keys, t ≤ v)) := by
  constructor
  · intro h
    unfold ConsistentHash.Get ConsistentHash.IsEmpty
    rw [if_pos (by simp [List.isEmpty_iff, h])]
  · intro hs hne
    have hget := ConsistentHash.Get_eq_of_ne_nil m key hne
    by_cases hex : ∃ v ∈ m.keys, m.hash key ≤ v
    · have hexb : ∃ v ∈ m.keys, (fun v => decide (m.hash key ≤ v)) v = true := by
        obtain ⟨v, hv, hle⟩ := hex
        exact ⟨v, hv, decide_eq_true hle⟩
      have hlt : m.keys.findIdx (fun v => decide (m.hash key ≤ v)) < m.keys.length :=
        List.findIdx_lt_length_of_exists hexb
      have hidxne : m.keys.findIdx (fun v => decide (m.hash key ≤ v)) ≠ m.keys.length :=
        Nat.ne_of_lt hlt
      rw [if_neg hidxne, List.getD_eq_getElem m.keys 0 hlt] at hget
      refine ⟨m.keys[m.keys.findIdx (fun v => decide (m.hash key ≤ v))],
        List.getElem_mem hlt, hget, ?_, ?_⟩
      · intro _
        constructor
        · exact of_decide_eq_true (List.findIdx_getElem (w := hlt))
        · intro v hv hle
          obtain ⟨j, hj, rfl⟩ := List.mem_iff_getElem.mp hv
          rcases Nat.lt_or_ge j (m.keys.findIdx (fun v => decide (m.hash key ≤ v))) with hjlt | hjge
          · have := List.not_of_lt_findIdx hjlt
            simp only [decide_eq_false_iff_not] at this
            exact absurd hle this
          · exact ConsistentHash.sorted_getElem_mono m.keys hs _ j hlt hj hjge
      · intro hall
        obtain ⟨v, hv, hle⟩ := hex
        exact absurd (hall v hv) (Nat.not_lt.mpr hle)
    · push_neg at hex
      have hfalse : ∀ x ∈ m.keys, (fun v => decide (m.hash key ≤ v)) x = false := by
        intro x hx
        exact decide_eq_false (Nat.not_le.mpr (hex x hx))
      have hidx : m.keys.findIdx (fun v => decide (m.hash key ≤ v)) = m.keys.length :=
        List.findIdx_eq_length.mpr hfalse
      have h0 : 0 < m.keys.length := List.length_pos.mpr hne
      rw [if_pos hidx, List.getD_eq_getElem m.keys 0 h0] at hget
      refine ⟨m.keys[0], List.getElem_mem h0, hget, ?_, ?_⟩
      · intro hex2
        obtain ⟨v, hv, hle⟩ := hex2
        exact absurd hle (Nat.not_le.mpr (hex v hv))
      · intro _ v hv
        obtain ⟨j, hj, rfl⟩ := List.mem_iff_getElem.mp hv
        exact ConsistentHash.sorted_getElem_mono m.keys hs 0 j h0 hj (Nat.zero_le j)

/-- C3 witness: the ring built from nodes "aa" and "bbbb" with one replica
under the length hash (positions 3 and 5), queried at "xy" (hash 2). -/
theorem ring_get_first_position_ge_witness :
    List.Sorted (· ≤ ·)
      (ConsistentHash.Add (ConsistentHash.New 1 String.length) ["aa", "bbbb"]).keys ∧
    (ConsistentHash.Add (ConsistentHash.New 1 String.length) ["aa", "bbbb"]).keys ≠ [] ∧
    ∃ t, t ∈ (ConsistentHash.Add (ConsistentHash.New 1 String.length) ["aa", "bbbb"]).keys ∧
      ConsistentHash.Get (ConsistentHash.Add (ConsistentHash.New 1 String.length)
          ["aa", "bbbb"]) "xy" =
        (ConsistentHash.Add (ConsistentHash.New 1 String.length) ["aa", "bbbb"]).hashMap t ∧
      ((∃ v ∈ (ConsistentHash.Add (ConsistentHash.New 1 String.length) ["aa", "bbbb"]).keys,
          (ConsistentHash.Add (ConsistentHash.New 1 String.length) ["aa", "bbbb"]).hash "xy" ≤ v) →
        (ConsistentHash.Add (ConsistentHash.New 1 String.length) ["aa", "bbbb"]).hash "xy" ≤ t ∧
        ∀ v ∈ (ConsistentHash.Add (ConsistentHash.New 1 String.length) ["aa", "bbbb"]).keys,
          (ConsistentHash.Add (ConsistentHash.New 1 String.length) ["aa", "bbbb"]).hash "xy" ≤ v →
            t ≤ v) ∧
      ((∀ v ∈ (ConsistentHash.Add (ConsistentHash.New 1 String.length) ["aa", "bbbb"]).keys,
          v < (ConsistentHash.Add (ConsistentHash.New 1 String.length) ["aa", "bbbb"]).hash "xy") →
        ∀ v ∈ (ConsistentHash.Add (ConsistentHash.New 1 String.length) ["aa", "bbbb"]).keys,
          t ≤ v) :=
  ⟨by decide, by decide,
    (ring_get_first_position_ge
      (ConsistentHash.Add (ConsistentHash.New 1 String.length) ["aa", "bbbb"]) "xy").2
      (by decide) (by decide)⟩

namespace ConsistentHash

/-- `Get` only looks at the hash capability, the ring and the
virtual-to-real table (the latter pointwise). -/
theorem Get_congr (m1 m2 : Map) (key : String) (hh : m1.hash = m2.hash)
    (hk : m1.keys = m2.keys) (hm : ∀ x, m1.hashMap x = m2.hashMap x) :
    Get m1 key = Get m2 key := by
  unfold Get IsEmpty
  rw [hh, hk]
  split
  · rfl
  · exact hm _

end ConsistentHash

/-- C8 counterexample: with the constant hash (every virtual point collides),
the rings built from the same node set `{"a","b"}` in the two orders map the
key "x" to different nodes — the later `Add` overwrites the shared table slot. -/
theorem ring_order_independence_cex :
    (["a", "b"] : List String).Perm ["b", "a"] ∧
    ConsistentHash.Get (ConsistentHash.Add (ConsistentHash.New 1 (fun _ => 0)) ["a", "b"]) "x" ≠
      ConsistentHash.Get (ConsistentHash.Add (ConsistentHash.New 1 (fun _ => 0)) ["b", "a"]) "x" :=
  ⟨by decide, by decide⟩

/-- C8 (amended): when the hash maps virtual points of distinct nodes to
distinct ring positions (no cross-node collisions among the generated replica
keys), two rings built by adding the same node set in any two orders give
every key the same node. -/
theorem ring_order_independence (replicas : Nat) (hash : String → Nat)
    (ks1 ks2 : List String) (key : String) (hperm : ks1.Perm ks2)
    (hinj : ∀ a ∈ ks1, ∀ b ∈ ks1, ∀ i, i < replicas → ∀ j, j < replicas →
      hash (toString i ++ a) = hash (toString j ++ b) → a = b) :
    ConsistentHash.Get (ConsistentHash.Add (ConsistentHash.New replicas hash) ks1) key =
      ConsistentHash.Get (ConsistentHash.Add (ConsistentHash.New replicas hash) ks2) key := by
  have hkeys : (ConsistentHash.Add (ConsistentHash.New replicas hash) ks1).keys =
      (ConsistentHash.Add (ConsistentHash.New replicas hash) ks2).keys := by
    rw [ConsistentHash.Add_keys, ConsistentHash.Add_keys,
      ConsistentHash.foldl_addNode_keys, ConsistentHash.foldl_addNode_keys]
    refine List.eq_of_perm_of_sorted ?_ (List.sorted_insertionSort _ _)
      (List.sorted_insertionSort _ _)
    refine (List.perm_insertionSort _ _).trans (.trans ?_ (List.perm_insertionSort _ _).symm)
    exact List.Perm.append (List.Perm.refl _) (List.Perm.flatMap_right _ hperm)
  have hmap : ∀ x, (ConsistentHash.Add (ConsistentHash.New replicas hash) ks1).hashMap x =
      (ConsistentHash.Add (ConsistentHash.New replicas hash) ks2).hashMap x := by
    intro x
    rw [ConsistentHash.Add_hashMap, ConsistentHash.Add_hashMap]
    by_cases hex : ∃ a ∈ ks1, ∃ i, i < replicas ∧ hash (toString i ++ a) = x
    · obtain ⟨a, ha, hhit⟩ := hex
      have huniq1 : ∀ b ∈ ks1, ∀ j, j < replicas → hash (toString j ++ b) = x → b = a := by
        intro b hb j hj hhb
        obtain ⟨i, hi, hha⟩ := hhit
        exact hinj b hb a ha j hj i hi (hhb.trans hha.symm)
      have h1 := ConsistentHash.foldl_addNode_hashMap_mem ks1
        (ConsistentHash.New replicas hash) x a ha hhit huniq1
      have h2 := ConsistentHash.foldl_addNode_hashMap_mem ks2
        (ConsistentHash.New replicas hash) x a (hperm.subset ha) hhit
        (fun b hb j hj hhb => huniq1 b (hperm.symm.subset hb) j hj hhb)
      exact h1.trans h2.symm
    · push_neg at hex
      have h1 := ConsistentHash.foldl_addNode_hashMap_notmem ks1
        (ConsistentHash.New replicas hash) x hex
      have h2 := ConsistentHash.foldl_addNode_hashMap_notmem ks2
        (ConsistentHash.New replicas hash) x
        (fun b hb j hj => hex b (hperm.symm.subset hb) j hj)
      exact h1.trans h2.symm
  exact ConsistentHash.Get_congr _ _ key
    (by rw [ConsistentHash.Add_hash, ConsistentHash.Add_hash]) hkeys hmap

/-- C8 witness: one replica, length hash, node set `{"aa","bbbb"}` added in
its two orders. -/
theorem ring_order_independence_witness :
    (["aa", "bbbb"] : List String).Perm ["bbbb", "aa"] ∧
    (∀ a ∈ (["aa", "bbbb"] : List String), ∀ b ∈ (["aa", "bbbb"] : List String),
      ∀ i, i < 1 → ∀ j, j < 1 →
        String.length (toString i ++ a) = String.length (toString j ++ b) → a = b) ∧
    ConsistentHash.Get (ConsistentHash.Add (ConsistentHash.New 1 String.length)
        ["aa", "bbbb"]) "xy" =
      ConsistentHash.Get (ConsistentHash.Add (ConsistentHash.New 1 String.length)
        ["bbbb", "aa"]) "xy" :=
  ⟨by decide, by decide,
    ring_order_independence 1 String.length ["aa", "bbbb"] ["bbbb", "aa"] "xy"
      (by decide) (by decide)⟩

/-- The pluggable hash capability used to exercise `Remove` on a concrete
ring: replica key "0b" ↦ 10, "0a" ↦ 5, "0c" ↦ 99, anything else ↦ 0. -/
def probeHash : String → Nat :=
  fun s => if s = "0b" then 10 else if s = "0a" then 5 else if s = "0c" then 99 else 0

/-- C9: on the one-node ring `{"b"}` (single ring position 10 owned by "b"),
removing the unregistered node "a" (replica hash 5, absent from the ring) is
not a no-op: it deletes the position owned by "b", leaving the ring empty;
and removing "c" (replica hash 99, beyond every ring value) hits the
out-of-range slice `m.keys[idx+1:]` — a panic. -/
theorem ring_remove_absent_node_unsafe :
    probeHash "0a" ∉ (ConsistentHash.Add (ConsistentHash.New 1 probeHash) ["b"]).keys ∧
    (ConsistentHash.Add (ConsistentHash.New 1 probeHash) ["b"]).keys = [10] ∧
    (ConsistentHash.Add (ConsistentHash.New 1 probeHash) ["b"]).hashMap 10 = "b" ∧
    (∃ m2, ConsistentHash.Remove (ConsistentHash.Add (ConsistentHash.New 1 probeHash) ["b"])
        "a" = .ok m2 ∧ m2.keys = []) ∧
    ConsistentHash.Remove (ConsistentHash.Add (ConsistentHash.New 1 probeHash) ["b"]) "c" =
      .error "slice bounds out of range" :=
  ⟨by decide, by decide, by decide, ⟨_, rfl, by decide⟩, rfl⟩

namespace Groupcache

/-- Go `error` values are modelled by their message string. -/
abbrev Err := String

/-- `ByteView` wraps an immutable byte slice; bytes are naturals here.
`cloneBytes`/`ByteSlice` produce copies that are equal as values, so copying
is the identity in this value-semantics embedding; `Len` is the length. -/
abbrev ByteView := List Nat

/-- The `Value` interface method of `ByteView` (`Len() int = len(v.b)`). -/
def bvLen (v : ByteView) : Nat := v.length

/-- `PeerGetter.Get(in *testpb.Request, out *testpb.Response) error`: the
request carries the group name and key, a successful reply carries
`out.Value`; modelled as a function from (group, key) to bytes-or-error. -/
abbrev PeerGetter := String → String → Except Err ByteView

/-- `PeerPicker.PickPeer(key) (peer PeerGetter, ok bool)`. -/
abbrev PeerPicker := String → Option PeerGetter

/-- The `cache` wrapper (cache.go): a lazily initialised `lru.Cache` behind a
mutex; the mutex makes each operation atomic, which is what this sequential
embedding provides. -/
structure GCache where
  lru : Option (Lru.Cache ByteView)
  cacheBytes : Int

/-- `cache.add`: initialise the engine on first use, then `lru.Add`. -/
def GCache.add (c : GCache) (key : String) (value : ByteView) : GCache :=
  match c.lru with
  | none => { c with lru := some ((Lru.NewCache ByteView c.cacheBytes).add bvLen key value) }
  | some l => { c with lru := some (l.add bvLen key value) }

/-- `cache.get`: `none` before the engine exists or on an lru miss; on a hit
the promoted engine state is kept. -/
def GCache.get (c : GCache) (key : String) : Option ByteView × GCache :=
  match c.lru with
  | none => (none, c)
  | some l =>
      match l.get key with
      | (none, _) => (none, c)
      | (some v, l2) => (some v, { c with lru := some l2 })

/-- `Group` (cache.go): a named cache namespace.  The `loader` field
(singleflight) carries no state between calls in the sequential embedding;
its concurrent behaviour is modelled separately by `Singleflight` below. -/
structure Group where
  name : String
  getter : String → Except Err ByteView
  mainCache : GCache
  peers : Option PeerPicker

/-- `Group.getFromPeer`: issue the peer request; on success wrap the reply
value, on failure propagate the error. -/
def Group.getFromPeer (g : Group) (peer : PeerGetter) (key : String) :
    Except Err ByteView :=
  match peer g.name key with
  | .error e => .error e
  | .ok bytes => .ok bytes

/-- `Group.getLocally`: call the origin getter; on failure return the error
with the store untouched, on success copy the bytes (`cloneBytes`, identity
on values) and `populateCate` them into `mainCache`. -/
def Group.getLocally (g : Group) (key : String) : Except Err ByteView × Group :=
  match g.getter key with
  | .error e => (.error e, g)
  | .ok bytes => (.ok bytes, { g with mainCache := g.mainCache.add key bytes })

/-- `Group.load`, i.e. the function handed to `loader.Do` run once (the
deduplicated single execution): try the picked peer first and fall through to
`getLocally` when there is no picker, no peer, or the peer fetch failed. -/
def Group.load (g : Group) (key : String) : Except Err ByteView × Group :=
  match g.peers with
  | some picker =>
      match picker key with
      | some peer =>
          match g.getFromPeer peer key with
          | .ok value => (.ok value, g)
          | .error _ => g.getLocally key
      | none => g.getLocally key
  | none => g.getLocally key

/-- `Group.Get`: reject the empty key, serve a local hit, otherwise `load`. -/
def Group.Get (g : Group) (key : String) : Except Err ByteView × Group :=
  if key = "" then (.error "key is required", g)
  else
    match g.mainCache.get key with
    | (some v, c2) => (.ok v, { g with mainCache := c2 })
    | (none, _) => g.load key

/-- The process-wide `groups` registry (`map[string]*Group`); lookup of an
absent name yields Go's zero value `nil`, i.e. `none`. -/
abbrev Registry := String → Option Group

/-- `NewGroup`: `panic("nil getter")` on a nil getter — modelled as an
`Except` — otherwise build the group with an empty lazily initialised cache
and store it under its name (overwriting any previous entry). -/
def NewGroup (registry : Registry) (name : String) (cacheBytes : Int)
    (getter : Option (String → Except Err ByteView)) : Except Err (Registry × Group) :=
  match getter with
  | none => .error "nil getter"
  | some gt =>
      let g : Group :=
        { name := name, getter := gt,
          mainCache := { lru := none, cacheBytes := cacheBytes }, peers := none }
      .ok (fun n => if n = name then some g else registry n, g)

/-- `GetGroup`. -/
def GetGroup (registry : Registry) (name : String) : Option Group :=
  registry name

end Groupcache

/-- C4: on a miss, when the router picks a remote peer and the peer fetch
fails, `Get` is exactly the local origin path of the same call — the peer
error is absorbed, never surfaced. -/
theorem peer_failure_falls_through (g : Groupcache.Group) (key : String)
    (picker : Groupcache.PeerPicker) (peer : Groupcache.PeerGetter) (e : Groupcache.Err)
    (hkey : key ≠ "") (hmiss : (g.mainCache.get key).1 = none)
    (hpeers : g.peers = some picker) (hpick : picker key = some peer)
    (herr : peer g.name key = .error e) :
    g.Get key = g.getLocally key := by
  rcases hmc : g.mainCache.get key with ⟨o, c2⟩
  rw [hmc] at hmiss
  simp only at hmiss
  subst hmiss
  simp [Groupcache.Group.Get, Groupcache.Group.load, Groupcache.Group.getFromPeer,
    hkey, hmc, hpeers, hpick, herr]

/-- C5: a value that arrives from a remote peer is handed to the caller with
the whole group state — in particular the local store — unchanged; only the
origin path (`getLocally`) inserts into the local store. -/
theorem peer_value_not_cached (g : Groupcache.Group) (key : String)
    (picker : Groupcache.PeerPicker) (peer : Groupcache.PeerGetter)
    (hkey : key ≠ "") (hmiss : (g.mainCache.get key).1 = none)
    (hpeers : g.peers = some picker) (hpick : picker key = some peer) :
    (∀ v, peer g.name key = .ok v → g.Get key = (.ok v, g)) ∧
    (∀ bytes, g.getter key = .ok bytes →
      (g.getLocally key).1 = .ok bytes ∧
      (g.getLocally key).2.mainCache = g.mainCache.add key bytes) := by
  constructor
  · intro v hok
    rcases hmc : g.mainCache.get key with ⟨o, c2⟩
    rw [hmc] at hmiss
    simp only at hmiss
    subst hmiss
    simp [Groupcache.Group.Get, Groupcache.Group.load, Groupcache.Group.getFromPeer,
      hkey, hmc, hpeers, hpick, hok]
  · intro bytes hok
    simp [Groupcache.Group.getLocally, hok]

/-- C6: when the call reaches the origin (no router, no picked peer, or a
failed peer fetch) and the origin errors, `Get` returns exactly that error
and the group — the local store included — is unchanged. -/
theorem origin_error_propagates (g : Groupcache.Group) (key : String) (e : Groupcache.Err)
    (hkey : key ≠ "") (hmiss : (g.mainCache.get key).1 = none)
    (horigin : g.getter key = .error e)
    (hpath : g.peers = none ∨
      (∃ picker, g.peers = some picker ∧ picker key = none) ∨
      (∃ picker peer e2, g.peers = some picker ∧ picker key = some peer ∧
        peer g.name key = .error e2)) :
    g.Get key = (.error e, g) := by
  rcases hmc : g.mainCache.get key with ⟨o, c2⟩
  rw [hmc] at hmiss
  simp only at hmiss
  subst hmiss
  rcases hpath with hp | ⟨picker, hp, hnone⟩ | ⟨picker, peer, e2, hp, hpeer, herr⟩
  · simp [Groupcache.Group.Get, Groupcache.Group.load, Groupcache.Group.getLocally,
      hkey, hmc, hp, horigin]
  · simp [Groupcache.Group.Get, Groupcache.Group.load, Groupcache.Group.getLocally,
      hkey, hmc, hp, hnone, horigin]
  · simp [Groupcache.Group.Get, Groupcache.Group.load, Groupcache.Group.getFromPeer,
      Groupcache.Group.getLocally, hkey, hmc, hp, hpeer, herr, horigin]

/-- C10: registering a group under a name that is already taken does not
fail: the new group silently replaces the old one and `GetGroup` finds the
new group. -/
theorem newgroup_overwrites_registration (registry : Groupcache.Registry) (name : String)
    (cacheBytes : Int) (gt : String → Except Groupcache.Err Groupcache.ByteView)
    (gOld : Groupcache.Group) (hpresent : registry name = some gOld) :
    ∃ r2 g, Groupcache.NewGroup registry name cacheBytes (some gt) = .ok (r2, g) ∧
      Groupcache.GetGroup r2 name = some g ∧ g.name = name ∧ g.getter = gt := by
  refine ⟨_, _, rfl, ?_, rfl, rfl⟩
  unfold Groupcache.GetGroup
  simp

namespace Groupcache

/-- Concrete origin capability for the witnesses, after the test harness:
knows "Tom" (bytes of "630") and errors on everything else. -/
def demoOrigin : String → Except Err ByteView := fun key =>
  if key = "Tom" then .ok [54, 51, 48] else .error (key ++ " is not exist")

/-- A peer whose transport always fails. -/
def demoPeerDown : PeerGetter := fun _ _ => .error "server returned: 500 Internal Server Error"

/-- A peer that answers every request with the bytes of "589". -/
def demoPeerUp : PeerGetter := fun _ _ => .ok [53, 56, 57]

/-- A router that always picks the failing peer. -/
def demoPickerDown : PeerPicker := fun _ => some demoPeerDown

/-- A router that always picks the healthy peer. -/
def demoPickerUp : PeerPicker := fun _ => some demoPeerUp

/-- A fresh group wired to the failing peer. -/
def demoGroupDown : Group :=
  { name := "scores", getter := demoOrigin,
    mainCache := { lru := none, cacheBytes := 2048 }, peers := some demoPickerDown }

/-- A fresh group wired to the healthy peer. -/
def demoGroupUp : Group :=
  { name := "scores", getter := demoOrigin,
    mainCache := { lru := none, cacheBytes := 2048 }, peers := some demoPickerUp }

/-- A fresh group with no registered router. -/
def demoGroupNoPeers : Group :=
  { name := "scores", getter := demoOrigin,
    mainCache := { lru := none, cacheBytes := 2048 }, peers := none }

/-- A previously registered group occupying the name "scores". -/
def demoOldGroup : Group :=
  { name := "scores", getter := fun _ => .error "old",
    mainCache := { lru := none, cacheBytes := 1024 }, peers := none }

/-- A registry in which "scores" is already taken. -/
def demoRegistry : Registry := fun n => if n = "scores" then some demoOldGroup else none

end Groupcache

/-- C4 witness: the failing-peer group at key "Jack". -/
theorem peer_failure_falls_through_witness :
    "Jack" ≠ "" ∧ (Groupcache.demoGroupDown.mainCache.get "Jack").1 = none ∧
    Groupcache.demoGroupDown.peers = some Groupcache.demoPickerDown ∧
    Groupcache.demoPickerDown "Jack" = some Groupcache.demoPeerDown ∧
    Groupcache.demoPeerDown Groupcache.demoGroupDown.name "Jack" =
      .error "server returned: 500 Internal Server Error" ∧
    Groupcache.demoGroupDown.Get "Jack" = Groupcache.demoGroupDown.getLocally "Jack" :=
  ⟨by decide, rfl, rfl, rfl, rfl,
    peer_failure_falls_through Groupcache.demoGroupDown "Jack" Groupcache.demoPickerDown
      Groupcache.demoPeerDown "server returned: 500 Internal Server Error"
      (by decide) rfl rfl rfl rfl⟩

/-- C5 witness: the healthy-peer group at key "Sam". -/
theorem peer_value_not_cached_witness :
    "Sam" ≠ "" ∧ (Groupcache.demoGroupUp.mainCache.get "Sam").1 = none ∧
    Groupcache.demoGroupUp.peers = some Groupcache.demoPickerUp ∧
    Groupcache.demoPickerUp "Sam" = some Groupcache.demoPeerUp ∧
    ((∀ v, Groupcache.demoPeerUp Groupcache.demoGroupUp.name "Sam" = .ok v →
        Groupcache.demoGroupUp.Get "Sam" = (.ok v, Groupcache.demoGroupUp)) ∧
     (∀ bytes, Groupcache.demoGroupUp.getter "Sam" = .ok bytes →
        (Groupcache.demoGroupUp.getLocally "Sam").1 = .ok bytes ∧
        (Groupcache.demoGroupUp.getLocally "Sam").2.mainCache =
          Groupcache.demoGroupUp.mainCache.add "Sam" bytes)) :=
  ⟨by decide, rfl, rfl, rfl,
    peer_value_not_cached Groupcache.demoGroupUp "Sam" Groupcache.demoPickerUp
      Groupcache.demoPeerUp (by decide) rfl rfl rfl⟩

/-- C6 witness: the peerless group at the unknown key "missing". -/
theorem origin_error_propagates_witness :
    "missing" ≠ "" ∧ (Groupcache.demoGroupNoPeers.mainCache.get "missing").1 = none ∧
    Groupcache.demoGroupNoPeers.getter "missing" = .error "missing is not exist" ∧
    Groupcache.demoGroupNoPeers.peers = none ∧
    Groupcache.demoGroupNoPeers.Get "missing" =
      (.error "missing is not exist", Groupcache.demoGroupNoPeers) :=
  ⟨by decide, rfl, rfl, rfl,
    origin_error_propagates Groupcache.demoGroupNoPeers "missing" "missing is not exist"
      (by decide) rfl rfl (Or.inl rfl)⟩

/-- C10 witness: re-registering "scores" over `demoRegistry`. -/
theorem newgroup_overwrites_registration_witness :
    Groupcache.demoRegistry "scores" = some Groupcache.demoOldGroup ∧
    ∃ r2 g, Groupcache.NewGroup Groupcache.demoRegistry "scores" 2048
        (some Groupcache.demoOrigin) = .ok (r2, g) ∧
      Groupcache.GetGroup r2 "scores" = some g ∧ g.name = "scores" ∧
      g.getter = Groupcache.demoOrigin :=
  ⟨rfl, newgroup_overwrites_registration Groupcache.demoRegistry "scores" 2048
    Groupcache.demoOrigin Groupcache.demoOldGroup rfl⟩

namespace Singleflight

/-- Where one caller of `singleflight.Group.Do(key, fn)` stands, for one
fixed key.  `cid` is the index (in allocation order) of the `call` object
the caller holds — either the `c := g.m[key]` it found or the
`c := new(call)` it allocated. -/
inductive Phase where
  | start
  | waiting (cid : Nat)
  | running (cid : Nat)
  | deleting (cid : Nat)
  | done (cid : Nat)
deriving DecidableEq, Repr

/-- The shared state of `singleflight.Group` projected to one key, plus the
callers.  `entry` models `g.m[key]` (the in-flight `call`'s id when
present); `cells` holds every `call` allocated so far, `some v` once
`c.val` has been written and `c.wg.Done()` signalled; `execCount` counts
the executions of `fn`. -/
structure State (α : Type) where
  entry : Option Nat
  cells : List (Option α)
  threads : List Phase
  execCount : Nat
deriving DecidableEq, Repr

/-- Scheduler events: which caller takes its next atomic step. -/
inductive Event where
  | enter (i : Nat)
  | run (i : Nat)
  | del (i : Nat)
  | wret (i : Nat)
deriving DecidableEq, Repr

def Event.isEnter : Event → Bool
  | .enter _ => true
  | _ => false

def Event.isDel : Event → Bool
  | .del _ => true
  | _ => false

/-- One atomic step of caller `i` in `Do(key, fn)`, `fnv` being the outcome
the single `fn` execution produces.  `enter` is the mutex-protected map
check (either find the in-flight call and go wait on it, or allocate,
register and own it); `run` is `c.val, c.err = fn(); c.wg.Done()` (run
outside the lock — only the cell it owns changes); `del` is the
mutex-protected `delete(g.m, key)` after which the owner returns `c.val`;
`wret` is a waiter passing `c.wg.Wait()` — enabled only once its cell is
filled — and returning `c.val`. -/
inductive Step {α : Type} (fnv : α) : State α → Event → State α → Prop where
  | enter_wait (s : State α) (i c : Nat)
      (hth : s.threads[i]? = some .start) (hentry : s.entry = some c) :
      Step fnv s (.enter i) { s with threads := s.threads.set i (.waiting c) }
  | enter_own (s : State α) (i : Nat)
      (hth : s.threads[i]? = some .start) (hentry : s.entry = none) :
      Step fnv s (.enter i)
        { s with entry := some s.cells.length,
                 cells := s.cells ++ [none],
                 threads := s.threads.set i (.running s.cells.length) }
  | run (s : State α) (i c : Nat)
      (hth : s.threads[i]? = some (.running c)) :
      Step fnv s (.run i)
        { s with cells := s.cells.set c (some fnv),
                 threads := s.threads.set i (.deleting c),
                 execCount := s.execCount + 1 }
  | del (s : State α) (i c : Nat)
      (hth : s.threads[i]? = some (.deleting c)) :
      Step fnv s (.del i)
        { s with entry := none, threads := s.threads.set i (.done c) }
  | wret (s : State α) (i c : Nat) (v : α)
      (hth : s.threads[i]? = some (.waiting c))
      (hcell : s.cells[c]? = some (some v)) :
      Step fnv s (.wret i) { s with threads := s.threads.set i (.done c) }

/-- A scheduled execution: the chain of steps named by an event list. -/
inductive Trace {α : Type} (fnv : α) : State α → List Event → State α → Prop where
  | nil (s : State α) : Trace fnv s [] s
  | cons (s1 s2 s3 : State α) (e : Event) (evs : List Event) :
      Step fnv s1 e s2 → Trace fnv s2 evs s3 → Trace fnv s1 (e :: evs) s3

/-- `n` callers about to call `Do` for the key, no call in flight. -/
def init (α : Type) (n : Nat) : State α :=
  { entry := none, cells := [], threads := List.replicate n .start, execCount := 0 }

/-- The claim's "in-flight window" scheduling hypothesis: every caller
performs its map check before the owner's `delete` — i.e. all callers enter
`Do` while the first window is still open. -/
def EntersBeforeDeletes (evs : List Event) : Prop :=
  ∃ evs1 evs2, evs = evs1 ++ evs2 ∧
    (∀ e ∈ evs1, e.isDel = false) ∧ (∀ e ∈ evs2, e.isEnter = false)

end Singleflight

namespace Singleflight

/-- No window has been opened for the key yet. -/
def InvIdle {α : Type} (s : State α) : Prop :=
  s.entry = none ∧ s.cells = [] ∧ s.execCount = 0 ∧
    ∀ (j : Nat) (p : Phase), s.threads[j]? = some p → p = .start

/-- The single window is open and its owner is still executing `fn`. -/
def InvRunning {α : Type} (s : State α) : Prop :=
  s.entry = some 0 ∧ s.cells = [none] ∧ s.execCount = 0 ∧
    ∃ ow : Nat, s.threads[ow]? = some (.running 0) ∧
      ∀ (j : Nat) (p : Phase), j ≠ ow → s.threads[j]? = some p →
        p = .start ∨ p = .waiting 0

/-- `fn` has completed and been signalled; the map entry is still present. -/
def InvDeleting {α : Type} (fnv : α) (s : State α) : Prop :=
  s.entry = some 0 ∧ s.cells = [some fnv] ∧ s.execCount = 1 ∧
    ∃ ow : Nat, s.threads[ow]? = some (.deleting 0) ∧
      ∀ (j : Nat) (p : Phase), j ≠ ow → s.threads[j]? = some p →
        p = .start ∨ p = .waiting 0 ∨ p = .done 0

/-- The owner has deleted the map entry and returned. -/
def InvClosed {α : Type} (fnv : α) (s : State α) : Prop :=
  s.entry = none ∧ s.cells = [some fnv] ∧ s.execCount = 1 ∧
    ∃ ow : Nat, s.threads[ow]? = some (.done 0) ∧
      ∀ (j : Nat) (p : Phase), j ≠ ow → s.threads[j]? = some p →
        p = .start ∨ p = .waiting 0 ∨ p = .done 0

/-- The first in-flight window has not closed yet. -/
def InvOpen {α : Type} (fnv : α) (s : State α) : Prop :=
  InvIdle s ∨ InvRunning s ∨ InvDeleting fnv s

/-- Full characterisation of the states reachable while every caller enters
during the first window. -/
def Inv {α : Type} (fnv : α) (s : State α) : Prop :=
  InvOpen fnv s ∨ InvClosed fnv s

theorem getElem?_set_of_some {β : Type} (l : List β) (i : Nat) (a b : β)
    (h : l[i]? = some b) : (l.set i a)[i]? = some a := by
  rw [List.getElem?_set_self', h]
  rfl

end Singleflight

namespace Singleflight

/-- While the first window is open, any step either keeps it open or is the
owner's `delete`, which closes it. -/
theorem step_open {α : Type} (fnv : α) (s s' : State α) (e : Event)
    (hinv : InvOpen fnv s) (hstep : Step fnv s e s') :
    InvOpen fnv s' ∨ (e.isDel = true ∧ InvClosed fnv s') := by
  cases hstep with
  | enter_wait i c hth hentry =>
      left
      rcases hinv with hI | hR | hD
      · rw [hI.1] at hentry
        cases hentry
      · obtain ⟨he, hc, hx, ow, how, hoth⟩ := hR
        have hc0 : c = 0 := by rw [he] at hentry; injection hentry with h; exact h.symm
        subst hc0
        have hine : i ≠ ow := by
          intro hie
          rw [hie, how] at hth
          simp at hth
        refine Or.inr (Or.inl ⟨he, hc, hx, ow, ?_, ?_⟩)
        · show (s.threads.set i (.waiting 0))[ow]? = some (.running 0)
          rw [List.getElem?_set_ne hine]
          exact how
        · intro j p hj hjp
          by_cases hji : j = i
          · subst hji
            rw [getElem?_set_of_some s.threads j _ _ hth] at hjp
            injection hjp with h
            exact Or.inr h.symm
          · rw [List.getElem?_set_ne (fun h => hji h.symm)] at hjp
            exact hoth j p hj hjp
      · obtain ⟨he, hc, hx, ow, how, hoth⟩ := hD
        have hc0 : c = 0 := by rw [he] at hentry; injection hentry with h; exact h.symm
        subst hc0
        have hine : i ≠ ow := by
          intro hie
          rw [hie, how] at hth
          simp at hth
        refine Or.inr (Or.inr ⟨he, hc, hx, ow, ?_, ?_⟩)
        · show (s.threads.set i (.waiting 0))[ow]? = some (.deleting 0)
          rw [List.getElem?_set_ne hine]
          exact how
        · intro j p hj hjp
          by_cases hji : j = i
          · subst hji
            rw [getElem?_set_of_some s.threads j _ _ hth] at hjp
            injection hjp with h
            exact Or.inr (Or.inl h.symm)
          · rw [List.getElem?_set_ne (fun h => hji h.symm)] at hjp
            exact hoth j p hj hjp
  | enter_own i hth hentry =>
      left
      rcases hinv with hI | hR | hD
      · obtain ⟨he, hc, hx, hall⟩ := hI
        refine Or.inr (Or.inl ⟨?_, ?_, hx, i, ?_, ?_⟩)
        · show some s.cells.length = some 0
          rw [hc]
          rfl
        · show s.cells ++ [none] = [none]
          rw [hc]
          rfl
        · show (s.threads.set i (.running s.cells.length))[i]? = some (.running 0)
          rw [getElem?_set_of_some s.threads i _ _ hth, hc]
          rfl
        · intro j p hj hjp
          rw [List.getElem?_set_ne (fun h => hj h.symm)] at hjp
          exact Or.inl (hall j p hjp)
      · rw [hR.1] at hentry
        cases hentry
      · rw [hD.1] at hentry
        cases hentry
  | run i c hth =>
      left
      rcases hinv with hI | hR | hD
      · have hs := hI.2.2.2 i _ hth
        cases hs
      · obtain ⟨he, hc, hx, ow, how, hoth⟩ := hR
        have hio : i = ow := by
          by_contra hne
          rcases hoth i _ hne hth with h | h <;> cases h
        subst hio
        have hc0 : c = 0 := by
          rw [how] at hth
          injection hth with h
          injection h with h2
          exact h2.symm
        subst hc0
        refine Or.inr (Or.inr ⟨he, ?_, ?_, i, ?_, ?_⟩)
        · show s.cells.set 0 (some fnv) = [some fnv]
          rw [hc]
          rfl
        · show s.execCount + 1 = 1
          rw [hx]
        · exact getElem?_set_of_some s.threads i _ _ hth
        · intro j p hj hjp
          rw [List.getElem?_set_ne (fun h => hj h.symm)] at hjp
          rcases hoth j p hj hjp with h | h
          · exact Or.inl h
          · exact Or.inr (Or.inl h)
      · obtain ⟨he, hc, hx, ow, how, hoth⟩ := hD
        by_cases hio : i = ow
        · subst hio
          rw [how] at hth
          simp at hth
        · rcases hoth i _ hio hth with h | h | h <;> cases h
  | del i c hth =>
      right
      refine ⟨rfl, ?_⟩
      rcases hinv with hI | hR | hD
      · have hs := hI.2.2.2 i _ hth
        cases hs
      · obtain ⟨he, hc, hx, ow, how, hoth⟩ := hR
        by_cases hio : i = ow
        · subst hio
          rw [how] at hth
          simp at hth
        · rcases hoth i _ hio hth with h | h <;> cases h
      · obtain ⟨he, hc, hx, ow, how, hoth⟩ := hD
        have hio : i = ow := by
          by_contra hne
          rcases hoth i _ hne hth with h | h | h <;> cases h
        subst hio
        have hc0 : c = 0 := by
          rw [how] at hth
          injection hth with h
          injection h with h2
          exact h2.symm
        subst hc0
        refine ⟨rfl, hc, hx, i, ?_, ?_⟩
        · exact getElem?_set_of_some s.threads i _ _ hth
        · intro j p hj hjp
          rw [List.getElem?_set_ne (fun h => hj h.symm)] at hjp
          exact hoth j p hj hjp
  | wret i c v hth hcell =>
      left
      rcases hinv with hI | hR | hD
      · have hs := hI.2.2.2 i _ hth
        cases hs
      · obtain ⟨he, hc, hx, ow, how, hoth⟩ := hR
        have hio : i ≠ ow := by
          intro hie
          rw [hie, how] at hth
          simp at hth
        have hc0 : c = 0 := by
          rcases hoth i _ hio hth with h | h
          · cases h
          · injection h with h2
        subst hc0
        rw [hc] at hcell
        simp at hcell
      · obtain ⟨he, hc, hx, ow, how, hoth⟩ := hD
        have hio : i ≠ ow := by
          intro hie
          rw [hie, how] at hth
          simp at hth
        have hc0 : c = 0 := by
          rcases hoth i _ hio hth with h | h | h
          · cases h
          · injection h with h2
          · cases h
        subst hc0
        refine Or.inr (Or.inr ⟨he, hc, hx, ow, ?_, ?_⟩)
        · rw [List.getElem?_set_ne hio]
          exact how
        · intro j p hj hjp
          by_cases hji : j = i
          · subst hji
            rw [getElem?_set_of_some s.threads j _ _ hth] at hjp
            injection hjp with h
            exact Or.inr (Or.inr h.symm)
          · rw [List.getElem?_set_ne (fun h => hji h.symm)] at hjp
            exact hoth j p hj hjp

/-- Once the window has closed, steps that are not an `enter` keep the state
closed (remaining waiters drain). -/
theorem step_closed {α : Type} (fnv : α) (s s' : State α) (e : Event)
    (hinv : InvClosed fnv s) (hstep : Step fnv s e s') (hne : e.isEnter = false) :
    InvClosed fnv s' := by
  obtain ⟨he, hc, hx, ow, how, hoth⟩ := hinv
  cases hstep with
  | enter_wait i c hth hentry => simp [Event.isEnter] at hne
  | enter_own i hth hentry => simp [Event.isEnter] at hne
  | run i c hth =>
      by_cases hio : i = ow
      · subst hio
        rw [how] at hth
        simp at hth
      · rcases hoth i _ hio hth with h | h | h <;> cases h
  | del i c hth =>
      by_cases hio : i = ow
      · subst hio
        rw [how] at hth
        simp at hth
      · rcases hoth i _ hio hth with h | h | h <;> cases h
  | wret i c v hth hcell =>
      have hio : i ≠ ow := by
        intro hie
        rw [hie, how] at hth
        simp at hth
      have hc0 : c = 0 := by
        rcases hoth i _ hio hth with h | h | h
        · cases h
        · injection h with h2
        · cases h
      subst hc0
      refine ⟨he, hc, hx, ow, ?_, ?_⟩
      · rw [List.getElem?_set_ne hio]
        exact how
      · intro j p hj hjp
        by_cases hji : j = i
        · subst hji
          rw [getElem?_set_of_some s.threads j _ _ hth] at hjp
          injection hjp with h
          exact Or.inr (Or.inr h.symm)
        · rw [List.getElem?_set_ne (fun h => hji h.symm)] at hjp
          exact hoth j p hj hjp

end Singleflight

namespace Singleflight

theorem trace_append {α : Type} (fnv : α) (evs1 evs2 : List Event) :
    ∀ s s' : State α, Trace fnv s (evs1 ++ evs2) s' →
      ∃ smid, Trace fnv s evs1 smid ∧ Trace fnv smid evs2 s' := by
  induction evs1 with
  | nil =>
      intro s s' ht
      exact ⟨s, Trace.nil s, ht⟩
  | cons e evs1 ih =>
      intro s s' ht
      cases ht with
      | cons _ s2 _ _ _ hstep htr =>
          obtain ⟨smid, h1, h2⟩ := ih s2 s' htr
          exact ⟨smid, Trace.cons _ _ _ _ _ hstep h1, h2⟩

theorem trace_open {α : Type} (fnv : α) (evs : List Event) :
    ∀ s s' : State α, InvOpen fnv s → Trace fnv s evs s' →
      (∀ e ∈ evs, e.isDel = false) → InvOpen fnv s' := by
  induction evs with
  | nil =>
      intro s s' hinv ht _
      cases ht
      exact hinv
  | cons e evs ih =>
      intro s s' hinv ht hnd
      cases ht with
      | cons _ s2 _ _ _ hstep htr =>
          rcases step_open fnv s s2 e hinv hstep with h | ⟨hd, _⟩
          · exact ih s2 s' h htr (fun x hx => hnd x (List.mem_cons_of_mem e hx))
          · rw [hnd e (List.mem_cons_self e evs)] at hd
            cases hd

theorem trace_inv {α : Type} (fnv : α) (evs : List Event) :
    ∀ s s' : State α, Inv fnv s → Trace fnv s evs s' →
      (∀ e ∈ evs, e.isEnter = false) → Inv fnv s' := by
  induction evs with
  | nil =>
      intro s s' hinv ht _
      cases ht
      exact hinv
  | cons e evs ih =>
      intro s s' hinv ht hne
      cases ht with
      | cons _ s2 _ _ _ hstep htr =>
          have hinv2 : Inv fnv s2 := by
            rcases hinv with hopen | hclosed
            · rcases step_open fnv s s2 e hopen hstep with h | ⟨_, hcl⟩
              · exact Or.inl h
              · exact Or.inr hcl
            · exact Or.inr (step_closed fnv s s2 e hclosed hstep
                (hne e (List.mem_cons_self e evs)))
          exact ih s2 s' hinv2 htr (fun x hx => hne x (List.mem_cons_of_mem e hx))

theorem step_threads_length {α : Type} (fnv : α) (s s' : State α) (e : Event)
    (h : Step fnv s e s') : s'.threads.length = s.threads.length := by
  cases h <;> simp

theorem trace_threads_length {α : Type} (fnv : α) (evs : List Event) :
    ∀ s s' : State α, Trace fnv s evs s' → s'.threads.length = s.threads.length := by
  induction evs with
  | nil =>
      intro s s' ht
      cases ht
      rfl
  | cons e evs ih =>
      intro s s' ht
      cases ht with
      | cons _ s2 _ _ _ hstep htr =>
          rw [ih s2 s' htr, step_threads_length fnv s s2 e hstep]

end Singleflight

/-- C2: starting from `n` callers and no in-flight call for the key, under
any interleaving in which every caller performs its map check before the
owner's `delete` (i.e. all `n` calls arrive within the first in-flight
window), once every caller has returned: `fn` was executed exactly once, and
every caller returned the value that single execution produced. -/
theorem singleflight_do_once {α : Type} (fnv : α) (n : Nat)
    (evs : List Singleflight.Event) (s : Singleflight.State α) (hn : 0 < n)
    (htrace : Singleflight.Trace fnv (Singleflight.init α n) evs s)
    (hwindow : Singleflight.EntersBeforeDeletes evs)
    (hdone : ∀ (j : Nat) (p : Singleflight.Phase), s.threads[j]? = some p →
      ∃ c, p = Singleflight.Phase.done c) :
    s.execCount = 1 ∧
      ∀ j, j < n → s.threads[j]? = some (Singleflight.Phase.done 0) ∧
        s.cells[0]? = some (some fnv) := by
  obtain ⟨evs1, evs2, hsplit, hnd, hne⟩ := hwindow
  subst hsplit
  obtain ⟨smid, h1, h2⟩ := Singleflight.trace_append fnv evs1 evs2 _ _ htrace
  have hinit : Singleflight.InvOpen fnv (Singleflight.init α n) := by
    left
    refine ⟨rfl, rfl, rfl, ?_⟩
    intro j p hjp
    rw [show (Singleflight.init α n).threads = List.replicate n .start from rfl,
      List.getElem?_replicate] at hjp
    split at hjp
    · injection hjp with h
      exact h.symm
    · cases hjp
  have hmid := Singleflight.trace_open fnv evs1 _ _ hinit h1 hnd
  have hfin := Singleflight.trace_inv fnv evs2 _ _ (Or.inl hmid) h2 hne
  have hlen : s.threads.length = n := by
    rw [Singleflight.trace_threads_length fnv (evs1 ++ evs2) _ _ htrace]
    simp [Singleflight.init]
  have h0lt : 0 < s.threads.length := by rw [hlen]; exact hn
  have hclosed : Singleflight.InvClosed fnv s := by
    rcases hfin with (hI | hR | hD) | hC
    · have h0 : s.threads[0]? = some s.threads[0] := List.getElem?_eq_getElem h0lt
      have hst := hI.2.2.2 0 _ h0
      obtain ⟨c, hc⟩ := hdone 0 _ h0
      rw [hst] at hc
      cases hc
    · obtain ⟨_, _, _, ow, how, _⟩ := hR
      obtain ⟨c, hc⟩ := hdone ow _ how
      cases hc
    · obtain ⟨_, _, _, ow, how, _⟩ := hD
      obtain ⟨c, hc⟩ := hdone ow _ how
      cases hc
    · exact hC
  obtain ⟨he, hc, hx, ow, how, hoth⟩ := hclosed
  refine ⟨hx, ?_⟩
  intro j hj
  have hjlt : j < s.threads.length := by rw [hlen]; exact hj
  have hgj : s.threads[j]? = some s.threads[j] := List.getElem?_eq_getElem hjlt
  have hcell : s.cells[0]? = some (some fnv) := by rw [hc]; rfl
  by_cases hjo : j = ow
  · subst hjo
    exact ⟨how, hcell⟩
  · obtain ⟨c, hcj⟩ := hdone j _ hgj
    rcases hoth j _ hjo hgj with h | h | h
    · rw [hcj] at h
      cases h
    · rw [hcj] at h
      cases h
    · rw [h] at hgj
      exact ⟨hgj, hcell⟩

namespace Singleflight

/-- The state two callers end in after the schedule
`[enter 0, enter 1, run 0, wret 1, del 0]` when `fn` produces `630`. -/
def demoFinal : State Nat :=
  { entry := none, cells := [some 630], threads := [.done 0, .done 0], execCount := 1 }

/-- A concrete two-caller execution: caller 0 registers and owns the fetch,
caller 1 arrives during the window and waits, the fetch completes, the
waiter returns, the owner deletes the entry and returns. -/
theorem demoTrace : Trace (630 : Nat) (init Nat 2)
    [.enter 0, .enter 1, .run 0, .wret 1, .del 0] demoFinal :=
  .cons _ _ _ _ _ (.enter_own _ 0 rfl rfl)
    (.cons _ _ _ _ _ (.enter_wait _ 1 0 rfl rfl)
      (.cons _ _ _ _ _ (.run _ 0 0 rfl)
        (.cons _ _ _ _ _ (.wret _ 1 0 630 rfl rfl)
          (.cons _ _ _ _ _ (.del _ 0 0 rfl)
            (.nil _)))))

end Singleflight

/-- C2 witness: the theorem applied to the concrete two-caller schedule. -/
theorem singleflight_do_once_witness :
    (0 < 2 ∧
     Singleflight.Trace (630 : Nat) (Singleflight.init Nat 2)
       [.enter 0, .enter 1, .run 0, .wret 1, .del 0] Singleflight.demoFinal ∧
     Singleflight.EntersBeforeDeletes [.enter 0, .enter 1, .run 0, .wret 1, .del 0] ∧
     (∀ (j : Nat) (p : Singleflight.Phase),
        Singleflight.demoFinal.threads[j]? = some p →
          ∃ c, p = Singleflight.Phase.done c)) ∧
    (Singleflight.demoFinal.execCount = 1 ∧
     ∀ j, j < 2 →
       Singleflight.demoFinal.threads[j]? = some (Singleflight.Phase.done 0) ∧
       Singleflight.demoFinal.cells[0]? = some (some 630)) := by
  have hwin : Singleflight.EntersBeforeDeletes
      [.enter 0, .enter 1, .run 0, .wret 1, .del 0] :=
    ⟨[.enter 0, .enter 1, .run 0, .wret 1], [.del 0], rfl, by decide, by decide⟩
  have hdn : ∀ (j : Nat) (p : Singleflight.Phase),
      Singleflight.demoFinal.threads[j]? = some p →
        ∃ c, p = Singleflight.Phase.done c := by
    intro j p hp
    rcases j with _ | _ | j
    · exact ⟨0, by injection hp with h; exact h.symm⟩
    · exact ⟨0, by injection hp with h; exact h.symm⟩
    · rw [List.getElem?_eq_none (Nat.le_add_left 2 j)] at hp
      exact Option.noConfusion hp
  exact ⟨⟨by decide, Singleflight.demoTrace, hwin, hdn⟩,
    singleflight_do_once 630 2 _ Singleflight.demoFinal (by decide)
      Singleflight.demoTrace hwin hdn⟩
